import Mathlib

/-!
Verification of the tree data model and tree/flat codec of the family-tree
editor (src/FamilyTree.tsx).

The source file contains two near-identical copies of the component (a
Supabase-backed one and a Firebase-backed one); the pure tree functions
(`mapTree`, `updateTree`, `findNode`, `getPathToNode`, `flattenTree`,
`buildTree`) and the action handlers (`deleteNode`, `addParentAbove`)
are logically identical in both copies, so one embedding covers both.

Embedding conventions:
- A JS `Person` has optional `children` and `_collapsed` fields; absent
  `children` behaves as `[]` everywhere in the code (`flattenTree` emits `[]`,
  `buildTree` always constructs `children: []`, the `?.` traversals skip), and
  absent `_collapsed` behaves as `false` (`node._collapsed || false`), so the
  model normalizes them to `children : List Person` and `collapsed : Bool`.
- `mapTree` and `updateTree` recurse on `fn(p).children`, the children of the
  value returned by the callback, which is not structurally smaller than the
  input; in JS this can loop forever.  They are therefore embedded with an
  explicit fuel bound, `none` meaning the JS computation has not finished
  within that recursion depth.  A result of `none` at every fuel is a proof of
  non-termination of the JS original.
- `buildTree` mutates a node map; the value it returns is the unfolding of the
  record graph from the chosen root.  The unfolding is embedded with fuel
  `flatData.length + 1`, which is enough depth for every acyclic record set
  (a path in the unfolding visits pairwise distinct record ids); on a cyclic
  record set the JS value is a cyclic object, not a tree, which the model
  reports as `none`.
- `genId()` produces a random id; operations that generate ids take the fresh
  id as an explicit parameter instead.
-/

/-- Tree node, `interface Person` of FamilyTree.tsx (optional fields
normalized: missing `children` is `[]`, missing `_collapsed` is `false`). -/
structure Person where
  id : String
  name : String
  collapsed : Bool
  children : List Person

/-- Flat storage record, `interface SupabasePerson` (identical to
`FirebasePersonDoc` in the second copy of the component). -/
structure SupabasePerson where
  id : String
  name : String
  parent_id : Option String
  children : List String
  collapsed : Bool
deriving DecidableEq

/-- Strong induction on a `Person` through its children list. -/
theorem Person.strongInd (P : Person → Prop)
    (h : ∀ p : Person, (∀ c ∈ p.children, P c) → P p) : ∀ p, P p := fun p =>
  h p (fun c hc => Person.strongInd P h c)
termination_by p => sizeOf p
decreasing_by
  cases p with
  | mk i n col cs =>
    have hlt := List.sizeOf_lt_of_mem hc
    simp at *
    omega

/-! ### Sample data

The `initialData` constant of FamilyTree.tsx (both copies agree). -/

/-- Sample ancestor tree, ids 1..8. -/
def initialData : Person :=
  ⟨"1", "Great-Great-Grandparent", false,
    [⟨"2", "Great-Grandparent", false,
      [⟨"3", "Grandparent", false,
        [⟨"4", "Parent 1", false,
          [⟨"5", "Child 1.1", false, []⟩,
           ⟨"6", "Child 1.2", false, []⟩]⟩,
         ⟨"7", "Parent 2", false,
          [⟨"8", "Child 2.1", false, []⟩]⟩]⟩]⟩]⟩

/-! ### Structural traversals

These functions of the source recurse on the actual children of the input
node, so they are embedded as (mutually) structurally recursive functions. -/

mutual

/-- The `flattenTree` function: emit this node's record, then the records of
each child subtree in order (pre-order traversal).  The record stores
`parent_id` (the `parentId` argument, `none` at the root), the ordered child
id list and the collapsed flag. -/
def flattenTree : Person → Option String → List SupabasePerson
  | ⟨i, n, col, cs⟩, parentId =>
    ⟨i, n, parentId, cs.map Person.id, col⟩ :: flattenForest cs i

/-- The `for (const child of node.children) flattened.push(...flattenTree(child, node.id))`
loop of `flattenTree`. -/
def flattenForest : List Person → String → List SupabasePerson
  | [], _ => []
  | c :: cs, pid => flattenTree c (some pid) ++ flattenForest cs pid

end

mutual

/-- Pre-order node list of a tree (the order in which both `findNode` and
`flattenTree` visit nodes). -/
def preorder : Person → List Person
  | ⟨i, n, col, cs⟩ => ⟨i, n, col, cs⟩ :: preorderForest cs

/-- Pre-order node list of a forest. -/
def preorderForest : List Person → List Person
  | [] => []
  | c :: cs => preorder c ++ preorderForest cs

end

/-- Ids of all nodes of a tree, in pre-order. -/
def nodeIds (p : Person) : List String := (preorder p).map Person.id

mutual

/-- Height of a tree (number of nodes on a longest root-to-leaf path);
used only to supply sufficient fuel to the fueled embeddings. -/
def height : Person → Nat
  | ⟨_, _, _, cs⟩ => 1 + heightForest cs

/-- Height of a forest. -/
def heightForest : List Person → Nat
  | [] => 0
  | c :: cs => max (height c) (heightForest cs)

end

mutual

/-- The `findNode` function: return this node on an id match, otherwise the
first non-null result among the children, in order (depth-first pre-order). -/
def findNode : Person → String → Option Person
  | ⟨i, n, col, cs⟩, tid =>
    if i = tid then some ⟨i, n, col, cs⟩ else findForest cs tid

/-- The `for (const child of node.children)` loop of `findNode`:
first non-null recursive result. -/
def findForest : List Person → String → Option Person
  | [], _ => none
  | c :: cs, tid =>
    match findNode c tid with
    | some f => some f
    | none => findForest cs tid

end

mutual

/-- The `getPathToNode` function: `[node]` on an id match, otherwise
`node` consed onto the first non-empty child path; `[]` if the id is
absent from the subtree. -/
def getPathToNode : Person → String → List Person
  | ⟨i, n, col, cs⟩, tid =>
    if i = tid then [⟨i, n, col, cs⟩]
    else
      let l := pathForest cs tid
      if l.isEmpty then [] else ⟨i, n, col, cs⟩ :: l

/-- The `for (const child of node.children)` loop of `getPathToNode`:
first non-empty recursive path. -/
def pathForest : List Person → String → List Person
  | [], _ => []
  | c :: cs, tid =>
    let l := getPathToNode c tid
    if l.isEmpty then pathForest cs tid else l

end

/-! ### Fueled combinators

`mapTree` and `updateTree` recurse on the children of the value returned by
the callback, so their recursion is not structural in the input; the
embeddings take a fuel bound and return `none` when the bound is exhausted. -/

/-- Apply an `Option`-valued function to every list element, failing if any
application fails (the shape of `next.children?.map((c) => mapTree(c, fn))`
where a `none` models a recursive call that does not terminate). -/
def optionMap (f : α → Option β) : List α → Option (List β)
  | [] => some []
  | a :: as =>
    match f a, optionMap f as with
    | some b, some bs => some (b :: bs)
    | _, _ => none

/-- The `mapTree` function: `next = fn(p)`, then rebuild `next` with every
child of `next` mapped recursively.  Fueled; `none` means the JS recursion
exceeds the given depth. -/
def mapTreeF : Nat → (Person → Person) → Person → Option Person
  | 0, _, _ => none
  | fuel + 1, fn, p =>
    let next := fn p
    match optionMap (fun c => mapTreeF fuel fn c) next.children with
    | none => none
    | some cs => some ⟨next.id, next.name, next.collapsed, cs⟩

/-- Collect the recursive `updateTree` results of a children list:
the inner `Option` of each result is the JS `null` (node deleted, filtered
out), the outer `Option` is fuel exhaustion (propagated). -/
def collectSurvivors (f : Person → Option (Option Person)) :
    List Person → Option (List Person)
  | [] => some []
  | c :: cs =>
    match f c, collectSurvivors f cs with
    | some none, some rest => some rest
    | some (some x), some rest => some (x :: rest)
    | _, _ => none

/-- The `updateTree` function: `res = fn(p)`; if `res` is null the node (and
with it its whole subtree) is deleted (`some none`); otherwise rebuild `res`
with the surviving recursive results of `res.children`.  Fueled; outer `none`
means the JS recursion exceeds the given depth. -/
def updateTreeF : Nat → (Person → Option Person) → Person → Option (Option Person)
  | 0, _, _ => none
  | fuel + 1, fn, p =>
    match fn p with
    | none => some none
    | some res =>
      match collectSurvivors (fun c => updateTreeF fuel fn c) res.children with
      | none => none
      | some cs => some (some ⟨res.id, res.name, res.collapsed, cs⟩)

/-! ### The tree/flat codec -/

/-- Record lookup as performed through `nodeMap`: both passes of `buildTree`
iterate the whole input with `Map.set`, so for a duplicated id the last
record wins; lookup is therefore first match in the reversed list. -/
def lookupRec (flat : List SupabasePerson) (i : String) : Option SupabasePerson :=
  flat.reverse.find? (fun r => r.id == i)

/-- Resolve a `childIds` list: an id with no record in the input is silently
dropped (`filter((child) => child !== undefined)`); an id whose record exists
is built recursively by `bd` (a `none` from `bd` is fuel exhaustion and is
propagated). -/
def buildKids (lk : String → Option SupabasePerson) (bd : String → Option Person) :
    List String → Option (List Person)
  | [] => some []
  | c :: cs =>
    match lk c with
    | none => buildKids lk bd cs
    | some _ =>
      match bd c, buildKids lk bd cs with
      | some child, some rest => some (child :: rest)
      | _, _ => none

/-- Unfold the record graph built by the two passes of `buildTree` from the
record with id `i`: the node's fields come from the looked-up record, its
children from resolving the record's `childIds`. -/
def buildNodeF : Nat → List SupabasePerson → String → Option Person
  | 0, _, _ => none
  | fuel + 1, flat, i =>
    match lookupRec flat i with
    | none => none
    | some r =>
      match buildKids (lookupRec flat) (fun c => buildNodeF fuel flat c) r.children with
      | none => none
      | some cs => some ⟨r.id, r.name, r.collapsed, cs⟩

/-- The `buildTree` function: empty input gives null; otherwise the root is
the first record whose `parent_id` is null (`flatData.find`), and the result
is the tree unfolded from it (fuel `flatData.length + 1` covers every acyclic
record set; a cyclic record set, whose JS value is a cyclic object and not a
tree, is reported as `none`). -/
def buildTree (flat : List SupabasePerson) : Option Person :=
  if flat.isEmpty then none
  else
    match flat.find? (fun r => r.parent_id.isNone) with
    | none => none
    | some rootItem => buildNodeF (flat.length + 1) flat rootItem.id

/-! ### Action handlers -/

/-- The callback passed by `deleteNode` to `updateTree`:
`(n) => (n.id === id ? null : n)`. -/
def deleteFn (i : String) : Person → Option Person :=
  fun n => if n.id = i then none else some n

/-- The `deleteNode` handler: if the target id is the root's id, alert
"Cannot delete the root node." and leave the tree unchanged; otherwise prune
via `updateTree`, falling back to the previous tree if the whole tree
vanished (`next ?? prev`).  The returned pair is (new tree, alert message);
`none` is fuel exhaustion of the underlying `updateTree`. -/
def deleteNode (fuel : Nat) (data : Person) (i : String) :
    Option (Person × Option String) :=
  if data.id = i then some (data, some "Cannot delete the root node.")
  else
    match updateTreeF fuel (deleteFn i) data with
    | none => none
    | some next => some (next.getD data, none)

/-- The callback passed by `addParentAbove` to `mapTree` for a non-root
target: wrap the matching node in a freshly created parent
(`{ id: genId(), name, children: [n] }`; the fresh id is the `newId`
parameter, the absent `_collapsed` is `false`). -/
def wrapFn (newId nm i : String) : Person → Person :=
  fun n => if n.id = i then ⟨newId, nm, false, [n]⟩ else n

/-- The `addParentAbove` handler: a target equal to the root is wrapped
directly in a new root; otherwise `mapTree` with `wrapFn` is applied
(`none` means that `mapTree` call does not finish within `fuel`). -/
def addParentAbove (fuel : Nat) (newId nm : String) (data : Person) (i : String) :
    Option Person :=
  if data.id = i then some ⟨newId, nm, false, [data]⟩
  else mapTreeF fuel (wrapFn newId nm i) data

/-! ### Claim-text rendering of updateTree

C3 states that a surviving node's children are the surviving transformed
results of its original children.  The following definition renders that
sentence literally (children recursed from the original `cs`, not from
`fn(p).children`); it is compared against the embedded `updateTreeF`. -/

mutual

/-- Modelled from the claim wording, not from the code: keep a node exactly
when `fn` is non-null on it, and give a surviving node the surviving
transformed results of its original children, in original order. -/
def updateTreeClaimed : Person → (Person → Option Person) → Option Person
  | ⟨i, n, col, cs⟩, fn =>
    match fn ⟨i, n, col, cs⟩ with
    | none => none
    | some res => some ⟨res.id, res.name, res.collapsed, updateForestClaimed cs fn⟩

/-- Surviving transformed results of a children list (claim wording). -/
def updateForestClaimed : List Person → (Person → Option Person) → List Person
  | [], _ => []
  | c :: cs, fn =>
    match updateTreeClaimed c fn with
    | none => updateForestClaimed cs fn
    | some c2 => c2 :: updateForestClaimed cs fn

end

/-! ### Sanity checks on concrete values -/

example : flattenTree ⟨"a", "n", false, [⟨"b", "m", true, []⟩]⟩ none =
    [⟨"a", "n", none, ["b"], false⟩, ⟨"b", "m", some "a", [], true⟩] := rfl

example : buildTree (flattenTree initialData none) = some initialData := rfl

example : height initialData = 5 := rfl

example : findNode initialData "99" = none := rfl

example : (getPathToNode initialData "8").map Person.id = ["1", "2", "3", "7", "8"] := rfl

example : mapTreeF 5 (fun n => n) initialData = some initialData := rfl

example : addParentAbove 50 "x9" "New Root" initialData "3" = none := rfl

/-! ### Basic lemmas -/

theorem height_pos (p : Person) : 0 < height p := by
  cases p with
  | mk i n col cs => simp [height]

theorem heightForest_ge {cs : List Person} {c : Person} (h : c ∈ cs) :
    height c ≤ heightForest cs := by
  induction cs with
  | nil => cases h
  | cons a as ih =>
    rcases List.mem_cons.mp h with h | h
    · subst h; simp [heightForest]
    · calc height c ≤ heightForest as := ih h
        _ ≤ heightForest (a :: as) := by simp [heightForest]

theorem optionMap_some_of_all {f : α → Option α} {l : List α}
    (h : ∀ a ∈ l, f a = some a) : optionMap f l = some l := by
  induction l with
  | nil => rfl
  | cons a as ih =>
    have ha : f a = some a := h a (List.mem_cons_self a as)
    have has : optionMap f as = some as := ih (fun b hb => h b (List.mem_cons_of_mem a hb))
    simp [optionMap, ha, has]

theorem optionMap_none_of_mem {f : α → Option β} {l : List α} {a : α}
    (ha : a ∈ l) (hf : f a = none) : optionMap f l = none := by
  induction l with
  | nil => cases ha
  | cons b bs ih =>
    rcases List.mem_cons.mp ha with h | h
    · subst h
      simp [optionMap, hf]
    · cases hfb : f b with
      | none => simp [optionMap, hfb]
      | some v => simp [optionMap, hfb, ih h]

theorem mem_preorderForest {cs : List Person} {w : Person} :
    w ∈ preorderForest cs ↔ ∃ c ∈ cs, w ∈ preorder c := by
  induction cs with
  | nil => simp [preorderForest]
  | cons a as ih =>
    simp [preorderForest, List.mem_append, ih]

theorem self_mem_preorder (p : Person) : p ∈ preorder p := by
  cases p with
  | mk i n col cs => simp [preorder]

/-! ### Flatten lemmas -/

/-- Record that `flattenTree` emits for a node (its shape is independent of
where in the traversal the node sits, except for the parent pointer). -/
def mkRec (u : Person) (pid : Option String) : SupabasePerson :=
  ⟨u.id, u.name, pid, u.children.map Person.id, u.collapsed⟩

mutual

theorem flatten_ids (p : Person) (par : Option String) :
    (flattenTree p par).map SupabasePerson.id = nodeIds p := by
  cases p with
  | mk i n col cs =>
    simp [flattenTree, nodeIds, preorder, flattenForest_ids cs i]

theorem flattenForest_ids (cs : List Person) (pid : String) :
    (flattenForest cs pid).map SupabasePerson.id = (preorderForest cs).map Person.id := by
  cases cs with
  | nil => simp [flattenForest, preorderForest]
  | cons c cs2 =>
    have h1 := flatten_ids c (some pid)
    have h2 := flattenForest_ids cs2 pid
    simp [flattenForest, preorderForest, h1, h2, nodeIds]

end

mutual

theorem flatten_mem (p : Person) (par : Option String) (u : Person)
    (hu : u ∈ preorder p) : ∃ pid, mkRec u pid ∈ flattenTree p par := by
  cases p with
  | mk i n col cs =>
    rw [preorder] at hu
    rcases List.mem_cons.mp hu with h | h
    · subst h
      exact ⟨par, by simp [flattenTree, mkRec]⟩
    · rcases flattenForest_mem cs i u h with ⟨pid, hm⟩
      exact ⟨pid, by simp [flattenTree, hm]⟩

theorem flattenForest_mem (cs : List Person) (pid0 : String) (u : Person)
    (hu : u ∈ preorderForest cs) : ∃ pid, mkRec u pid ∈ flattenForest cs pid0 := by
  cases cs with
  | nil => cases hu
  | cons c cs2 =>
    rw [preorderForest] at hu
    rcases List.mem_append.mp hu with h | h
    · rcases flatten_mem c (some pid0) u h with ⟨pid, hm⟩
      exact ⟨pid, by simp [flattenForest, hm]⟩
    · rcases flattenForest_mem cs2 pid0 u h with ⟨pid, hm⟩
      exact ⟨pid, by simp [flattenForest, hm]⟩

end

mutual

theorem height_le_flatten_len (p : Person) (par : Option String) :
    height p ≤ (flattenTree p par).length := by
  cases p with
  | mk i n col cs =>
    have h := heightForest_le_flattenForest_len cs i
    simp [height, flattenTree]
    omega

theorem heightForest_le_flattenForest_len (cs : List Person) (pid : String) :
    heightForest cs ≤ (flattenForest cs pid).length := by
  cases cs with
  | nil => simp [heightForest, flattenForest]
  | cons c cs2 =>
    have h1 := height_le_flatten_len c (some pid)
    have h2 := heightForest_le_flattenForest_len cs2 pid
    simp [heightForest, flattenForest]
    omega

end

/-! ### Lookup lemmas -/

theorem find_unique {α : Type} (f : α → String) {l : List α} {r : α}
    (hnd : (l.map f).Nodup) (hr : r ∈ l) :
    l.find? (fun a => f a == f r) = some r := by
  induction l with
  | nil => cases hr
  | cons a as ih =>
    rw [List.map_cons, List.nodup_cons] at hnd
    by_cases h : f a = f r
    · have har : a = r := by
        rcases List.mem_cons.mp hr with h2 | h2
        · exact h2.symm
        · exact absurd (h ▸ List.mem_map_of_mem f h2) hnd.1
      rw [List.find?_cons_of_pos _ (by simp [h])]
      rw [har]
    · rw [List.find?_cons_of_neg _ (by simp [h])]
      rcases List.mem_cons.mp hr with h2 | h2
      · exact absurd (congrArg f h2.symm) h
      · exact ih hnd.2 h2

theorem lookupRec_of_mem {flat : List SupabasePerson} {r : SupabasePerson}
    (hnd : (flat.map SupabasePerson.id).Nodup) (hr : r ∈ flat) :
    lookupRec flat r.id = some r := by
  have hnd2 : (flat.reverse.map SupabasePerson.id).Nodup := by
    rw [List.map_reverse, List.nodup_reverse]; exact hnd
  have hr2 : r ∈ flat.reverse := List.mem_reverse.mpr hr
  exact find_unique SupabasePerson.id hnd2 hr2

/-! ### Round-trip of the codec -/

/-- Every node of `u` has a good record in `flat`: the record found by
`lookupRec` at its id carries its name, collapsed flag and ordered child
id list. -/
def GoodLookups (flat : List SupabasePerson) (u : Person) : Prop :=
  ∀ w ∈ preorder u, ∃ pid, lookupRec flat w.id = some (mkRec w pid)

mutual

theorem buildNode_correct (u : Person) (flat : List SupabasePerson) :
    ∀ fuel, height u ≤ fuel → GoodLookups flat u →
    buildNodeF fuel flat u.id = some u := by
  cases u with
  | mk i n col cs =>
    intro fuel hf hg
    cases fuel with
    | zero =>
      exact absurd hf (by have := height_pos ⟨i, n, col, cs⟩; omega)
    | succ f =>
      rcases hg ⟨i, n, col, cs⟩ (self_mem_preorder _) with ⟨pid, hlk⟩
      have hcs : buildKids (lookupRec flat) (fun c => buildNodeF f flat c)
          (cs.map Person.id) = some cs := by
        apply buildKids_correct cs flat f
        · have : height ⟨i, n, col, cs⟩ = 1 + heightForest cs := by simp [height]
          omega
        · intro w hw
          exact hg w (by rw [preorder]; exact List.mem_cons_of_mem _ hw)
      simp only [buildNodeF, hlk, mkRec, hcs]

theorem buildKids_correct (cs : List Person) (flat : List SupabasePerson) :
    ∀ fuel, heightForest cs ≤ fuel →
    (∀ w ∈ preorderForest cs, ∃ pid, lookupRec flat w.id = some (mkRec w pid)) →
    buildKids (lookupRec flat) (fun c => buildNodeF fuel flat c)
      (cs.map Person.id) = some cs := by
  cases cs with
  | nil => intro fuel _ _; rfl
  | cons c cs2 =>
    intro fuel hf hg
    have hgc : GoodLookups flat c := by
      intro w hw
      exact hg w (by rw [preorderForest]; exact List.mem_append_left _ hw)
    have hc : buildNodeF fuel flat c.id = some c := by
      apply buildNode_correct c flat fuel _ hgc
      calc height c ≤ heightForest (c :: cs2) := heightForest_ge (List.mem_cons_self _ _)
        _ ≤ fuel := hf
    have hrest : buildKids (lookupRec flat) (fun x => buildNodeF fuel flat x)
        (cs2.map Person.id) = some cs2 := by
      apply buildKids_correct cs2 flat fuel
      · have : heightForest cs2 ≤ heightForest (c :: cs2) := by simp [heightForest]
        omega
      · intro w hw
        exact hg w (by rw [preorderForest]; exact List.mem_append_right _ hw)
    rcases hgc c (self_mem_preorder c) with ⟨pid, hlkc⟩
    simp only [List.map_cons, buildKids, hlkc, hc, hrest]

end

/-- Round-trip core: for a tree with pairwise distinct node ids,
`buildTree` rebuilds exactly the tree that `flattenTree` serialized. -/
theorem buildTree_flattenTree (t : Person) (hnd : (nodeIds t).Nodup) :
    buildTree (flattenTree t none) = some t := by
  have hflatnd : ((flattenTree t none).map SupabasePerson.id).Nodup := by
    rw [flatten_ids]; exact hnd
  have hg : GoodLookups (flattenTree t none) t := by
    intro w hw
    rcases flatten_mem t none w hw with ⟨pid, hm⟩
    exact ⟨pid, lookupRec_of_mem hflatnd hm⟩
  have hfuel : height t ≤ (flattenTree t none).length + 1 := by
    have := height_le_flatten_len t none
    omega
  cases t with
  | mk i n col cs =>
    have hbn := buildNode_correct ⟨i, n, col, cs⟩ (flattenTree ⟨i, n, col, cs⟩ none)
      ((flattenTree ⟨i, n, col, cs⟩ none).length + 1) hfuel hg
    rw [buildTree]
    rw [flattenTree] at hbn ⊢
    rw [List.find?_cons_of_pos _ (by simp)]
    simpa using hbn

/-! ### Root selection lemmas for buildTree -/

theorem buildNodeF_id {fuel : Nat} {flat : List SupabasePerson} {i : String}
    {p : Person} (h : buildNodeF fuel flat i = some p) : p.id = i := by
  cases fuel with
  | zero => cases h
  | succ f =>
    rw [buildNodeF] at h
    cases hlk : lookupRec flat i with
    | none => rw [hlk] at h; cases h
    | some r =>
      simp only [hlk] at h
      have hri : r.id = i := by
        have := List.find?_some hlk
        simpa using this
      cases hbk : buildKids (lookupRec flat) (fun c => buildNodeF f flat c) r.children with
      | none => simp only [hbk] at h; cases h
      | some cs =>
        simp only [hbk] at h
        cases h
        exact hri

theorem buildTree_root {flat : List SupabasePerson} {p : Person}
    (h : buildTree flat = some p) :
    ∃ r, flat.find? (fun x => x.parent_id.isNone) = some r ∧
      r.parent_id = none ∧ p.id = r.id := by
  rw [buildTree] at h
  by_cases he : flat.isEmpty
  · rw [if_pos he] at h; cases h
  · rw [if_neg he] at h
    cases hf : flat.find? (fun x => x.parent_id.isNone) with
    | none => rw [hf] at h; cases h
    | some r =>
      rw [hf] at h
      refine ⟨r, rfl, ?_, buildNodeF_id h⟩
      have := List.find?_some hf
      simpa [Option.isNone_iff_eq_none] using this

/-! ### mapTree lemmas -/

/-- With the identity callback, `mapTree` terminates (its recursion is then
structural) and rebuilds the same value. -/
theorem mapTreeF_id (p : Person) : ∀ fuel, height p ≤ fuel →
    mapTreeF fuel (fun n => n) p = some p := by
  induction p using Person.strongInd with
  | _ p ih =>
    cases p with
    | mk i n col cs =>
      intro fuel hf
      cases fuel with
      | zero => exact absurd hf (by have := height_pos ⟨i, n, col, cs⟩; omega)
      | succ f =>
        have hcs : optionMap (fun c => mapTreeF f (fun n => n) c) cs = some cs := by
          apply optionMap_some_of_all
          intro c hc
          apply ih c hc f
          have h1 : height c ≤ heightForest cs := heightForest_ge hc
          have h2 : height ⟨i, n, col, cs⟩ = 1 + heightForest cs := by simp [height]
          omega
        simp only [mapTreeF, hcs]

/-- On a node whose id already matches the target, the `addParentAbove`
callback wraps the node in a new parent that still contains the matching node
as its child, so `mapTree` re-enters the same node with every unit of fuel:
the recursion never finishes. -/
theorem mapTreeF_wrap_target {newId nm i : String} {t : Person} (ht : t.id = i) :
    ∀ fuel, mapTreeF fuel (wrapFn newId nm i) t = none := by
  intro fuel
  induction fuel with
  | zero => rfl
  | succ f ih =>
    have hw : wrapFn newId nm i t = ⟨newId, nm, false, [t]⟩ := by
      simp [wrapFn, ht]
    rw [mapTreeF]
    simp only [hw]
    have : optionMap (fun c => mapTreeF f (wrapFn newId nm i) c) [t] = none :=
      optionMap_none_of_mem (List.mem_singleton_self t) ih
    simp [this]

/-- If the target id occurs anywhere in the tree, the `addParentAbove`
callback makes `mapTree` diverge: no fuel suffices. -/
theorem mapTreeF_wrap_none {newId nm i : String} {p : Person}
    (hw : ∃ w ∈ preorder p, w.id = i) :
    ∀ fuel, mapTreeF fuel (wrapFn newId nm i) p = none := by
  induction p using Person.strongInd with
  | _ p ih =>
    intro fuel
    by_cases hp : p.id = i
    · exact mapTreeF_wrap_target hp fuel
    · cases fuel with
      | zero => rfl
      | succ f =>
        rcases hw with ⟨w, hwmem, hwid⟩
        have hwmem2 : w ∈ preorderForest p.children := by
          cases p with
          | mk pi pn pcol pcs =>
            rw [preorder] at hwmem
            rcases List.mem_cons.mp hwmem with h | h
            · exact absurd (h ▸ hwid) hp
            · exact h
        rcases mem_preorderForest.mp hwmem2 with ⟨c, hc, hwc⟩
        have hcnone : mapTreeF f (wrapFn newId nm i) c = none :=
          ih c hc ⟨w, hwc, hwid⟩ f
        have hnext : wrapFn newId nm i p = p := by simp [wrapFn, hp]
        rw [mapTreeF]
        simp only [hnext]
        have : optionMap (fun c => mapTreeF f (wrapFn newId nm i) c) p.children = none :=
          optionMap_none_of_mem hc hcnone
        simp [this]

/-! ### updateTree lemmas -/

/-- Callbacks that never change a node's children list (every callback the
component passes to `updateTree` — deletion returns the node unchanged or
null). -/
def ChildPreserving (fn : Person → Option Person) : Prop :=
  ∀ n r, fn n = some r → r.children = n.children

theorem childPreserving_deleteFn (i : String) : ChildPreserving (deleteFn i) := by
  intro n r h
  rw [deleteFn] at h
  by_cases hn : n.id = i
  · simp [hn] at h
  · simp only [hn, if_neg, if_false] at h
    cases h
    rfl

/-- For a child-preserving callback, `updateTree` terminates and computes
exactly the semantics of the claim sentence: a node survives exactly when
`fn` is non-null on it, and a surviving node's children are the surviving
transformed results of its original children, in original order. -/
theorem updateTreeF_claimed {fn : Person → Option Person} (hcp : ChildPreserving fn) :
    ∀ (p : Person) (fuel : Nat), height p ≤ fuel →
      updateTreeF fuel fn p = some (updateTreeClaimed p fn) := by
  intro p
  induction p using Person.strongInd with
  | _ p ih =>
    cases p with
    | mk i n col cs =>
      intro fuel hf
      cases fuel with
      | zero => exact absurd hf (by have := height_pos ⟨i, n, col, cs⟩; omega)
      | succ f =>
        have hfor : ∀ cs2 : List Person,
            (∀ c ∈ cs2, ∀ fuel2, height c ≤ fuel2 →
              updateTreeF fuel2 fn c = some (updateTreeClaimed c fn)) →
            heightForest cs2 ≤ f →
            collectSurvivors (fun c => updateTreeF f fn c) cs2 =
              some (updateForestClaimed cs2 fn) := by
          intro cs2 hall hh
          induction cs2 with
          | nil => rfl
          | cons c rest ihr =>
            have hc : updateTreeF f fn c = some (updateTreeClaimed c fn) := by
              apply hall c (List.mem_cons_self _ _) f
              have : height c ≤ heightForest (c :: rest) :=
                heightForest_ge (List.mem_cons_self c rest)
              have h2 : heightForest (c :: rest) ≤ f := hh
              omega
            have hrest : collectSurvivors (fun x => updateTreeF f fn x) rest =
                some (updateForestClaimed rest fn) := by
              apply ihr
              · intro x hx; exact hall x (List.mem_cons_of_mem c hx)
              · have : heightForest rest ≤ heightForest (c :: rest) := by
                  simp [heightForest]
                omega
            cases hcl : updateTreeClaimed c fn with
            | none => simp only [collectSurvivors, hc, hcl, hrest, updateForestClaimed]
            | some x => simp only [collectSurvivors, hc, hcl, hrest, updateForestClaimed]
        cases hfn : fn ⟨i, n, col, cs⟩ with
        | none => simp only [updateTreeF, updateTreeClaimed, hfn]
        | some res =>
          have hres : res.children = cs := hcp ⟨i, n, col, cs⟩ res hfn
          have hcoll : collectSurvivors (fun c => updateTreeF f fn c) cs =
              some (updateForestClaimed cs fn) := by
            apply hfor cs
            · intro c hc fuel2 hh2
              exact ih c hc fuel2 hh2
            · have : height ⟨i, n, col, cs⟩ = 1 + heightForest cs := by simp [height]
              omega
          simp only [updateTreeF, updateTreeClaimed, hfn, hres, hcoll]

/-! ### findNode and getPathToNode lemmas -/

mutual

theorem findNode_preorder (p : Person) (tid : String) :
    findNode p tid = (preorder p).find? (fun n => n.id == tid) := by
  cases p with
  | mk i n col cs =>
    by_cases h : i = tid
    · rw [findNode, if_pos h, preorder, List.find?_cons_of_pos _ (by simp [h])]
    · rw [findNode, if_neg h, preorder, List.find?_cons_of_neg _ (by simp [h])]
      exact findForest_preorder cs tid

theorem findForest_preorder (cs : List Person) (tid : String) :
    findForest cs tid = (preorderForest cs).find? (fun n => n.id == tid) := by
  cases cs with
  | nil => rfl
  | cons c cs2 =>
    rw [findForest, preorderForest, List.find?_append, findNode_preorder c tid,
      findForest_preorder cs2 tid]
    cases (preorder c).find? (fun n => n.id == tid) with
    | none => rfl
    | some f => rfl

end

mutual

theorem path_empty_iff (p : Person) (tid : String) :
    getPathToNode p tid = [] ↔ findNode p tid = none := by
  cases p with
  | mk i n col cs =>
    by_cases h : i = tid
    · rw [getPathToNode, findNode]
      simp [h]
    · rw [getPathToNode, findNode]
      simp only [h, if_false, if_neg]
      cases hE : (pathForest cs tid).isEmpty
      · have hne : pathForest cs tid ≠ [] := by
          intro hnil
          rw [hnil] at hE
          cases hE
        have := (pathForest_empty_iff cs tid).not.mp hne
        simp only [hE, if_false, Bool.false_eq_true]
        constructor
        · intro hc; cases hc
        · intro hc; exact absurd hc this
      · have hnil : pathForest cs tid = [] := List.isEmpty_iff.mp hE
        have := (pathForest_empty_iff cs tid).mp hnil
        simp [hE, this]

theorem pathForest_empty_iff (cs : List Person) (tid : String) :
    pathForest cs tid = [] ↔ findForest cs tid = none := by
  cases cs with
  | nil => simp [pathForest, findForest]
  | cons c cs2 =>
    rw [pathForest, findForest]
    cases hE : (getPathToNode c tid).isEmpty
    · have hne : getPathToNode c tid ≠ [] := by
        intro hnil; rw [hnil] at hE; cases hE
      have hfind : findNode c tid ≠ none := (path_empty_iff c tid).not.mp hne
      cases hf : findNode c tid with
      | none => exact absurd hf hfind
      | some f =>
        simp only [hE, Bool.false_eq_true, if_false]
        constructor
        · intro hc; exact absurd hc hne
        · intro hc; cases hc
    · have hnil : getPathToNode c tid = [] := List.isEmpty_iff.mp hE
      have hf : findNode c tid = none := (path_empty_iff c tid).mp hnil
      simp [hE, hf, pathForest_empty_iff cs2 tid]

end

mutual

theorem path_spec (p : Person) (tid : String) (hne : getPathToNode p tid ≠ []) :
    (getPathToNode p tid).head? = some p ∧
    ((getPathToNode p tid).getLast?).map Person.id = some tid ∧
    List.Chain' (fun a b => b ∈ a.children) (getPathToNode p tid) := by
  cases p with
  | mk i n col cs =>
    by_cases h : i = tid
    · rw [getPathToNode, if_pos h]
      refine ⟨rfl, by simp [h], List.chain'_singleton _⟩
    · rw [getPathToNode, if_neg h] at hne ⊢
      cases hE : (pathForest cs tid).isEmpty
      · simp only [hE, Bool.false_eq_true, if_false]
        have hfne : pathForest cs tid ≠ [] := by
          intro hnil; rw [hnil] at hE; cases hE
        rcases pathForest_spec cs tid hfne with ⟨⟨c, hc, hhead⟩, hlast, hchain⟩
        refine ⟨rfl, ?_, ?_⟩
        · cases hl : pathForest cs tid with
          | nil => exact absurd hl hfne
          | cons a as =>
            rw [hl] at hlast
            rw [List.getLast?_cons_cons]
            exact hlast
        · rw [List.chain'_cons']
          refine ⟨?_, hchain⟩
          intro b hb
          rw [hhead] at hb
          cases hb
          exact hc
      · simp [hE] at hne

theorem pathForest_spec (cs : List Person) (tid : String) (hne : pathForest cs tid ≠ []) :
    (∃ c ∈ cs, (pathForest cs tid).head? = some c) ∧
    ((pathForest cs tid).getLast?).map Person.id = some tid ∧
    List.Chain' (fun a b => b ∈ a.children) (pathForest cs tid) := by
  cases cs with
  | nil => exact absurd rfl hne
  | cons c cs2 =>
    rw [pathForest] at hne ⊢
    cases hE : (getPathToNode c tid).isEmpty
    · simp only [hE, Bool.false_eq_true, if_false]
      have hcne : getPathToNode c tid ≠ [] := by
        intro hnil; rw [hnil] at hE; cases hE
      rcases path_spec c tid hcne with ⟨hhead, hlast, hchain⟩
      exact ⟨⟨c, List.mem_cons_self _ _, hhead⟩, hlast, hchain⟩
    · simp only [hE, if_true] at hne ⊢
      rcases pathForest_spec cs2 tid hne with ⟨⟨c2, hc2, hhead⟩, hlast, hchain⟩
      exact ⟨⟨c2, List.mem_cons_of_mem c hc2, hhead⟩, hlast, hchain⟩

end

/-! ### Concrete inputs used by the claims -/

/-- Sample tree after deleting leaf "6": node "4" keeps only child "5",
everything else unchanged. -/
def afterDelete6 : Person :=
  ⟨"1", "Great-Great-Grandparent", false,
    [⟨"2", "Great-Grandparent", false,
      [⟨"3", "Grandparent", false,
        [⟨"4", "Parent 1", false,
          [⟨"5", "Child 1.1", false, []⟩]⟩,
         ⟨"7", "Parent 2", false,
          [⟨"8", "Child 2.1", false, []⟩]⟩]⟩]⟩]⟩

/-- Record set whose root lists a child id ("ghost") with no record. -/
def danglingFlat : List SupabasePerson :=
  [⟨"r", "Root", none, ["a", "ghost"], false⟩,
   ⟨"a", "A", some "r", [], false⟩]

/-- Tree rebuilt from `danglingFlat`: the ghost child is silently omitted. -/
def danglingResult : Person := ⟨"r", "Root", false, [⟨"a", "A", false, []⟩]⟩

/-- Record set with two null-parent records whose subtrees are disjoint. -/
def twoRootsFlat : List SupabasePerson :=
  [⟨"r1", "R1", none, ["a"], false⟩, ⟨"r2", "R2", none, ["b"], false⟩,
   ⟨"a", "A", some "r1", [], false⟩, ⟨"b", "B", some "r2", [], false⟩]

/-- Record set with two null-parent records where the second one is reachable
from the first (listed among its child ids). -/
def twoRootsReachableFlat : List SupabasePerson :=
  [⟨"r1", "R1", none, ["a", "r2"], false⟩, ⟨"r2", "R2", none, ["b"], false⟩,
   ⟨"a", "A", some "r1", [], false⟩, ⟨"b", "B", some "r2", [], false⟩]

/-- Leaf used by the C3 counterexample. -/
def cexChild : Person := ⟨"b", "B", false, []⟩

/-- Two-node tree used by the C3 counterexample. -/
def cexTree : Person := ⟨"a", "A", false, [cexChild]⟩

/-- Callback that is non-null on every node but clears the children list of
node "a". -/
def cexFn : Person → Option Person :=
  fun n => if n.id = "a" then some ⟨n.id, n.name, n.collapsed, []⟩ else some n

/-! ### Claim theorems -/

/-- C1: for every valid tree `t` (pairwise distinct node ids),
`buildTree (flattenTree t)` returns a tree structurally equal to `t` — same
ids, names, collapsed flags and child order at every node (in this
normalized model, literally equal to `t`). -/
theorem claim_C1_roundtrip (t : Person) (hnd : (nodeIds t).Nodup) :
    buildTree (flattenTree t none) = some t :=
  buildTree_flattenTree t hnd

/-- Witness for C1 at the sample tree. -/
theorem claim_C1_roundtrip_witness :
    buildTree (flattenTree initialData none) = some initialData :=
  claim_C1_roundtrip initialData (by decide)

/-- C2 (code bug): `addParentAbove` on a non-root target never returns.  The
callback it hands to `mapTree` wraps the matching node in a new parent whose
only child is the node itself, and `mapTree` recurses into the children of
the callback's result, so it re-wraps the same node forever: on the sample
tree with non-root target "3" the result is `none` at every fuel bound,
i.e. the JS original overflows the stack instead of splicing in a parent. -/
theorem claim_C2_addParentAbove_nonroot_diverges :
    ∀ (fuel : Nat) (newId nm : String),
      addParentAbove fuel newId nm initialData "3" = none := by
  intro fuel newId nm
  rw [addParentAbove, if_neg (by decide)]
  exact mapTreeF_wrap_none (by decide) fuel

/-- C3 counterexample: the claim says `updateTree` keeps a node exactly when
`fn(node)` is non-null and gives a surviving node the surviving transformed
results of its original children.  `cexFn` is non-null on both nodes of
`cexTree`, yet the code drops node "b": the code recurses on the children of
`fn(node)`, not on the node's original children. -/
theorem claim_C3_counterexample :
    cexFn cexTree ≠ none ∧ cexFn cexChild ≠ none ∧
    updateTreeF 3 cexFn cexTree = some (some ⟨"a", "A", false, []⟩) ∧
    updateTreeClaimed cexTree cexFn = some ⟨"a", "A", false, [cexChild]⟩ ∧
    (⟨"a", "A", false, []⟩ : Person) ≠ ⟨"a", "A", false, [cexChild]⟩ := by
  refine ⟨by simp [cexFn, cexTree], by simp [cexFn, cexChild], rfl, rfl, by simp [cexChild]⟩

/-- C3 (amended): a surviving node's children are the surviving transformed
results of the children of `fn(node)`; whenever the callback preserves each
node's children list — as the deletion callback does — this coincides with
the claim's reading (surviving transformed results of the original children,
in original order, a node kept exactly when `fn` is non-null on it and its
ancestors survive), and deleting leaf "6" from the sample tree yields the
tree where node "4" has exactly one child "5" and every other node is
unchanged. -/
theorem claim_C3_amended :
    (∀ fn : Person → Option Person, ChildPreserving fn →
      ∀ (p : Person) (fuel : Nat), height p ≤ fuel →
        updateTreeF fuel fn p = some (updateTreeClaimed p fn)) ∧
    updateTreeF 9 (deleteFn "6") initialData = some (some afterDelete6) := by
  exact ⟨fun fn hcp p fuel hf => updateTreeF_claimed hcp p fuel hf, rfl⟩

/-- Witness for C3 (amended) at the sample tree with the deletion callback. -/
theorem claim_C3_amended_witness :
    updateTreeF 5 (deleteFn "6") initialData =
      some (updateTreeClaimed initialData (deleteFn "6")) :=
  claim_C3_amended.1 (deleteFn "6") (childPreserving_deleteFn "6") initialData 5 (by decide)

/-- C4: invoking `deleteNode` with an id equal to the current root's id is
rejected before any state change: the handler returns the alert message
"Cannot delete the root node." and the tree unchanged — `updateTree` is
never invoked, so nothing is pruned. -/
theorem claim_C4_root_delete_guard (fuel : Nat) (data : Person) (i : String)
    (h : i = data.id) :
    deleteNode fuel data i = some (data, some "Cannot delete the root node.") := by
  subst h
  simp [deleteNode]

/-- Witness for C4 at the sample tree's root id. -/
theorem claim_C4_root_delete_guard_witness :
    deleteNode 0 initialData "1" = some (initialData, some "Cannot delete the root node.") :=
  claim_C4_root_delete_guard 0 initialData "1" rfl

/-- C5: `buildTree` returns null on an empty input and on an input with no
null-parent record; the root of a non-null result is the (first) record
with null `parent_id`; and a `childIds` entry resolving to no record is
silently dropped, as the `danglingFlat` example shows. -/
theorem claim_C5_buildTree_edge_cases :
    buildTree [] = none ∧
    (∀ flat : List SupabasePerson,
      flat.find? (fun r => r.parent_id.isNone) = none → buildTree flat = none) ∧
    (∀ (flat : List SupabasePerson) (p : Person), buildTree flat = some p →
      ∃ r, flat.find? (fun x => x.parent_id.isNone) = some r ∧
        r.parent_id = none ∧ p.id = r.id) ∧
    buildTree danglingFlat = some danglingResult := by
  refine ⟨rfl, ?_, ?_, rfl⟩
  · intro flat h
    rw [buildTree]
    by_cases he : flat.isEmpty
    · rw [if_pos he]
    · rw [if_neg he, h]
  · intro flat p h
    exact buildTree_root h

/-- Witness for C5 on a record set with no null-parent record. -/
theorem claim_C5_buildTree_edge_cases_witness :
    buildTree [⟨"x", "X", some "y", [], false⟩] = none :=
  claim_C5_buildTree_edge_cases.2.1 [⟨"x", "X", some "y", [], false⟩] rfl

/-- C6: `findNode` is the first depth-first pre-order match (null when the
id is absent); `getPathToNode` is empty exactly when the id is absent, and a
non-empty path starts at the root, ends at the node carrying the target id,
and each step goes to a child of the previous node; on the sample tree the
path to "8" is ["1","2","3","7","8"] and `findNode` of the absent id "99"
is null. -/
theorem claim_C6_find_and_path :
    (∀ (p : Person) (tid : String),
      findNode p tid = (preorder p).find? (fun n => n.id == tid)) ∧
    (∀ (p : Person) (tid : String),
      getPathToNode p tid = [] ↔ findNode p tid = none) ∧
    (∀ (p : Person) (tid : String), getPathToNode p tid ≠ [] →
      (getPathToNode p tid).head? = some p ∧
      ((getPathToNode p tid).getLast?).map Person.id = some tid ∧
      List.Chain' (fun a b => b ∈ a.children) (getPathToNode p tid)) ∧
    (getPathToNode initialData "8").map Person.id = ["1", "2", "3", "7", "8"] ∧
    findNode initialData "99" = none :=
  ⟨findNode_preorder, path_empty_iff, path_spec, rfl, rfl⟩

/-- Witness for C6: the sample path to "8" indeed starts at the root. -/
theorem claim_C6_find_and_path_witness :
    (getPathToNode initialData "8").head? = some initialData :=
  (claim_C6_find_and_path.2.2.1 initialData "8"
    (by
      intro h
      have h5 : (getPathToNode initialData "8").length = 5 := rfl
      rw [h] at h5
      simp at h5)).1

/-- C7: `mapTree` with the identity callback rebuilds a tree equal in value
to the input (same ids, names, collapsed flags, child order); with the
identity callback the recursion is structural, so any fuel of at least the
tree's height suffices.  (That the JS result is a fresh object rather than
the same reference is a memory-identity fact outside this value model.) -/
theorem claim_C7_mapTree_identity (p : Person) (fuel : Nat) (h : height p ≤ fuel) :
    mapTreeF fuel (fun n => n) p = some p :=
  mapTreeF_id p fuel h

/-- Witness for C7 at the sample tree. -/
theorem claim_C7_mapTree_identity_witness :
    mapTreeF 5 (fun n => n) initialData = some initialData :=
  claim_C7_mapTree_identity initialData 5 (by decide)

/-- C8: for a valid tree, one decode/encode cycle is the identity on the
record set — `flattenTree` of `buildTree (flattenTree t)` has exactly the
same records as `flattenTree t` (here even as the same list, hence as a
set). -/
theorem claim_C8_flatten_idempotent (t : Person) (hnd : (nodeIds t).Nodup) :
    ∃ t2, buildTree (flattenTree t none) = some t2 ∧
      ∀ r : SupabasePerson, r ∈ flattenTree t2 none ↔ r ∈ flattenTree t none :=
  ⟨t, buildTree_flattenTree t hnd, fun _ => Iff.rfl⟩

/-- Witness for C8 at the sample tree. -/
theorem claim_C8_flatten_idempotent_witness :
    ∃ t2, buildTree (flattenTree initialData none) = some t2 ∧
      ∀ r : SupabasePerson, r ∈ flattenTree t2 none ↔ r ∈ flattenTree initialData none :=
  claim_C8_flatten_idempotent initialData (by decide)

/-- C9: `addParentAbove` at the current root returns immediately (no
`mapTree` recursion): the new root carries the fresh id and given name and
has exactly one child, the entire old root subtree, unchanged. -/
theorem claim_C9_addParentAbove_root (fuel : Nat) (newId nm : String) (data : Person) :
    addParentAbove fuel newId nm data data.id = some ⟨newId, nm, false, [data]⟩ := by
  simp [addParentAbove]

/-- C10: with several null-parent records, `buildTree` neither fails nor
merges them: it unfolds the tree rooted at the first null-parent record in
input order; the other null-parent records' subtrees appear in the result
only when reachable from that root (compare `twoRootsFlat` and
`twoRootsReachableFlat`). -/
theorem claim_C10_multiple_roots :
    buildTree twoRootsFlat = some ⟨"r1", "R1", false, [⟨"a", "A", false, []⟩]⟩ ∧
    buildTree twoRootsReachableFlat =
      some ⟨"r1", "R1", false,
        [⟨"a", "A", false, []⟩, ⟨"r2", "R2", false, [⟨"b", "B", false, []⟩]⟩]⟩ ∧
    (∀ (flat : List SupabasePerson) (p : Person), buildTree flat = some p →
      ∃ r, flat.find? (fun x => x.parent_id.isNone) = some r ∧ p.id = r.id) := by
  refine ⟨rfl, rfl, ?_⟩
  intro flat p h
  rcases buildTree_root h with ⟨r, h1, _, h3⟩
  exact ⟨r, h1, h3⟩

/-- Witness for C10: the root of the two-root example is the first
null-parent record. -/
theorem claim_C10_multiple_roots_witness :
    ∃ r, twoRootsFlat.find? (fun x => x.parent_id.isNone) = some r ∧
      (⟨"r1", "R1", false, [⟨"a", "A", false, []⟩]⟩ : Person).id = r.id :=
  claim_C10_multiple_roots.2.2 twoRootsFlat _ claim_C10_multiple_roots.1
